import Mathlib

/-!
# Verification of `scripts/parse_pdf.py` (my-bet-visualizer)

A shallow embedding of the statement-parsing engine in `scripts/parse_pdf.py`.
Python strings are modelled as `String` / `List Char` (the ASCII fragment of
the Python semantics: `str.strip`, `\s`, `\w`, `\d` and `str.upper` are
modelled on ASCII characters, which covers every string the program's data
and the claims exercise).  Python `float` values are modelled as exact
rationals (`ℚ`): a finite decimal or scientific literal denotes its exact
decimal value; the IEEE-754 rounding of `float()` and the non-finite
specials `inf`/`nan` are outside the model (no claim depends on them).
Python `None`-able strings are `Option String`; fallible library calls are
modelled by `Option`/`Except` results.  The `pdfplumber` collaborator is
modelled as an `Except String (List (Option String))` value: either an
exception (with its message) raised while opening/extracting, or the list
of per-page `extract_text()` results.
-/

namespace BetViz

/-! ## Character classes (Python `re` / `str` semantics, ASCII fragment) -/

/-- Python whitespace (`str.strip`, `\s`): space, tab, newline, CR, VT, FF. -/
def isWs (c : Char) : Bool :=
  c = ' ' || c = '\t' || c = '\n' || c = '\r' || c = '\x0b' || c = '\x0c'

/-- Python `\d` (ASCII fragment). -/
def isDig (c : Char) : Bool := '0' ≤ c && c ≤ '9'

/-- Python `\w` (ASCII fragment): letters, digits, underscore. -/
def isWord (c : Char) : Bool := c.isAlpha || isDig c || c = '_'

/-- Python `.` (no DOTALL): any character except a newline. -/
def isDot (c : Char) : Bool := c ≠ '\n'

/-- The character class `[-\d.E-]` / `[\d.E-]` of the two transaction
patterns (both denote the same set: digits, `.`, `E`, `-`). -/
def isNumCls (c : Char) : Bool := isDig c || c = '.' || c = 'E' || c = '-'

/-- Numeric value of a digit character. -/
def digVal (c : Char) : Nat := c.toNat - 48

/-- The digit character for `n ≤ 9`. -/
def digChar (n : Nat) : Char := Char.ofNat (48 + n)

/-- Value of a digit string, most significant first. -/
def digitsVal (l : List Char) : Nat := l.foldl (fun a c => 10 * a + digVal c) 0

/-! ## Python string primitives -/

/-- Python `str.strip()` (ASCII whitespace). -/
def pyStrip (l : List Char) : List Char :=
  ((l.dropWhile isWs).reverse.dropWhile isWs).reverse

/-- `pyStrip` on `String`. -/
def pyStripS (s : String) : String := String.mk (pyStrip s.data)

/-- Is `n` a prefix of `l`?  (Executable form of `List.IsPrefix`.) -/
def prefB : List Char → List Char → Bool
  | [], _ => true
  | _ :: _, [] => false
  | c :: n, x :: l => c = x && prefB n l

/-- Python `n in l` for strings: `n` occurs contiguously inside `l`. -/
def occursB : List Char → List Char → Bool
  | n, [] => prefB n []
  | n, x :: l => prefB n (x :: l) || occursB n l

/-- Declarative form of `occursB`. -/
def Occurs (n l : List Char) : Prop := ∃ a b, l = a ++ n ++ b

/-- Python `text.split('\n')`: split at every newline, keeping empty pieces;
the empty string yields one empty piece. -/
def splitNl : List Char → List (List Char)
  | [] => [[]]
  | c :: r =>
    if c = '\n' then [] :: splitNl r
    else
      match splitNl r with
      | l :: ls => (c :: l) :: ls
      | [] => [[c]]

/-- Zero-padded decimal rendering of width `w` (as in `datetime.isoformat`). -/
def padNum (w n : Nat) : List Char :=
  let ds := Nat.toDigits 10 n
  List.replicate (w - ds.length) '0' ++ ds

/-! ## Models of Python numeric literal parsing

`pyFloatLit` models `float(text)` and `pyIntLit` models `int(text)`:
leading/trailing whitespace, an optional sign, and (for floats) an optional
fraction and exponent, with CPython's underscore-separator rule (a single
`_` is allowed only between two digits).  A finite literal is mapped to the
exact rational it denotes; the case-insensitive specials `inf`/`infinity`/
`nan` are accepted by the recognizer but collapsed to `0` in the rational
model (no claim depends on their value). -/

/-- Parse a digit run with CPython underscore separators, after the first
digit: returns the digits (underscores removed) and the rest. -/
def digMore : List Char → (List Char × List Char)
  | [] => ([], [])
  | c :: r =>
    if isDig c then
      let (ds, rest) := digMore r
      (c :: ds, rest)
    else if c = '_' then
      match r with
      | c2 :: r2 =>
        if isDig c2 then
          let (ds, rest) := digMore r2
          (c2 :: ds, rest)
        else ([], c :: r)
      | [] => ([], [c])
    else ([], c :: r)

/-- Parse a digit run that must start with a digit. -/
def digRun : List Char → Option (List Char × List Char)
  | [] => none
  | c :: r =>
    if isDig c then
      let (ds, rest) := digMore r
      some (c :: ds, rest)
    else none

/-- Optional sign; returns `(-1 or 1, rest)`. -/
def signOf : List Char → (Int × List Char)
  | '-' :: r => (-1, r)
  | '+' :: r => (1, r)
  | l => (1, l)

/-- The case-insensitive special float spellings accepted by `float()`. -/
def isFloatSpecial (l : List Char) : Bool :=
  let low := l.map Char.toLower
  low = "inf".data || low = "infinity".data || low = "nan".data

/-- Mantissa of a float literal: `digits [. digits?]` or `. digits`;
returns `(integer digits, fraction digits, rest)`. -/
def floatMantissa (l : List Char) : Option (List Char × List Char × List Char) :=
  match digRun l with
  | some (ip, r) =>
    match r with
    | '.' :: r2 =>
      match r2 with
      | c :: _ =>
        if isDig c then
          match digRun r2 with
          | some (fp, r3) => some (ip, fp, r3)
          | none => some (ip, [], r2)
        else some (ip, [], r2)
      | [] => some (ip, [], [])
    | _ => some (ip, [], r)
  | none =>
    match l with
    | '.' :: r2 =>
      match digRun r2 with
      | some (fp, r3) => some ([], fp, r3)
      | none => none
    | _ => none

/-- Exponent suffix `((e|E) sign? digits)?`; returns `(exponent, rest)`. -/
def floatExponent (l : List Char) : Option (Int × List Char) :=
  match l with
  | c :: r =>
    if c = 'e' || c = 'E' then
      let (es, r1) := signOf r
      match digRun r1 with
      | some (eds, r2) => some (es * (digitsVal eds : Int), r2)
      | none => none
    else some (0, l)
  | [] => some (0, [])

/-- The exact rational `sg * (ip.fp) * 10^ex`, built with `mkRat` so that
it evaluates by kernel reduction. -/
def floatVal (sg : Int) (ip fp : List Char) (ex : Int) : ℚ :=
  let mant : Nat := digitsVal (ip ++ fp)
  let e : Int := ex - (fp.length : Int)
  if 0 ≤ e then mkRat (sg * (mant * 10 ^ e.toNat : Nat)) 1
  else mkRat (sg * (mant : Nat)) (10 ^ (-e).toNat)

/-- Model of Python `float(text)`: `some q` iff `float` accepts `text`,
with `q` the exact rational denoted (specials collapse to `0`). -/
def pyFloatLit (s : String) : Option ℚ :=
  let l := pyStrip s.data
  let (sg, l1) := signOf l
  if isFloatSpecial l1 then some 0
  else
    match floatMantissa l1 with
    | some (ip, fp, r) =>
      match floatExponent r with
      | some (ex, r2) =>
        if r2 = [] ∧ (ip ≠ [] ∨ fp ≠ []) then some (floatVal sg ip fp ex)
        else none
      | none => none
    | none => none

/-- Model of Python `int(text)`. -/
def pyIntLit (s : String) : Option ℤ :=
  let l := pyStrip s.data
  let (sg, l1) := signOf l
  match digRun l1 with
  | some (ds, r) => if r = [] then some (sg * (digitsVal ds : Int)) else none
  | none => none

/-! ## Model of `datetime.strptime(text, '%Y-%m-%d')`

CPython's `_strptime` compiles `%Y-%m-%d` to the regular expression
`(\d\d\d\d)-(1[0-2]|0[1-9]|[1-9])-(3[01]|[12]\d|0[1-9]|[1-9])` and requires
it to consume the whole string; the matched fields then go through the
`datetime` constructor, which rejects year `0` and a day beyond the length
of the month.  `monthCands`/`dayCands` list, in the regex's alternation
order, the (value, rest) pairs the month/day sub-expressions can produce;
`ymdMatch` is the leftmost-preference backtracking match of the whole
pattern. -/

/-- First result of `f` over `l`, in order (regex backtracking search). -/
def firstSome {α β : Type} (f : α → Option β) : List α → Option β
  | [] => none
  | a :: as => match f a with
    | some b => some b
    | none => firstSome f as

/-- Candidates of `1[0-2]|0[1-9]|[1-9]`, in alternation order. -/
def monthCands : List Char → List (Nat × List Char)
  | c1 :: c2 :: r =>
    (if c1 = '1' && (c2 = '0' || c2 = '1' || c2 = '2') then [(10 + digVal c2, r)] else [])
    ++ (if c1 = '0' && isDig c2 && c2 ≠ '0' then [(digVal c2, r)] else [])
    ++ (if isDig c1 && c1 ≠ '0' then [(digVal c1, c2 :: r)] else [])
  | [c1] => if isDig c1 && c1 ≠ '0' then [(digVal c1, [])] else []
  | [] => []

/-- Candidates of `3[01]|[12]\d|0[1-9]|[1-9]`, in alternation order. -/
def dayCands : List Char → List (Nat × List Char)
  | c1 :: c2 :: r =>
    (if c1 = '3' && (c2 = '0' || c2 = '1') then [(30 + digVal c2, r)] else [])
    ++ (if (c1 = '1' || c1 = '2') && isDig c2 then [(10 * digVal c1 + digVal c2, r)] else [])
    ++ (if c1 = '0' && isDig c2 && c2 ≠ '0' then [(digVal c2, r)] else [])
    ++ (if isDig c1 && c1 ≠ '0' then [(digVal c1, c2 :: r)] else [])
  | [c1] => if isDig c1 && c1 ≠ '0' then [(digVal c1, [])] else []
  | [] => []

/-- The continuation after a month candidate: a literal `-`, a day
candidate, then end of string. -/
def dayTail (y m : Nat) (l : List Char) : Option (Nat × Nat × Nat) :=
  match l with
  | c :: r2 =>
    if c = '-' then
      firstSome (fun dc => if dc.2 = [] then some (y, m, dc.1) else none) (dayCands r2)
    else none
  | [] => none

/-- Full-string match of the compiled `%Y-%m-%d` pattern. -/
def ymdMatch (l : List Char) : Option (Nat × Nat × Nat) :=
  match l with
  | y1 :: y2 :: y3 :: y4 :: h :: rest =>
    if isDig y1 && isDig y2 && isDig y3 && isDig y4 && h = '-' then
      firstSome (fun mc => dayTail (digitsVal [y1, y2, y3, y4]) mc.1 mc.2)
        (monthCands rest)
    else none
  | _ => none

/-- Gregorian leap year (as in `datetime`). -/
def isLeap (y : Nat) : Bool := (y % 4 = 0 && y % 100 ≠ 0) || y % 400 = 0

/-- Days in a month (as in `datetime`). -/
def daysInMonth (y m : Nat) : Nat :=
  if m = 2 then (if isLeap y then 29 else 28)
  else if m = 4 || m = 6 || m = 9 || m = 11 then 30
  else 31

/-- `datetime(y, m, d).isoformat()` for a midnight timestamp. -/
def isoOfYMD (y m d : Nat) : String :=
  String.mk (padNum 4 y ++ '-' :: padNum 2 m ++ '-' :: padNum 2 d ++ "T00:00:00".data)

/-! ## Field normalizers (`clean_value`, `parse_date`, `parse_float`, `parse_int`) -/

/-- `clean_value`: strip, collapse embedded newlines to spaces, and map the
empty string and the literal `'None'` to `None`. -/
def clean_value : Option String → Option String
  | none => none
  | some s =>
    let t := (pyStrip s.data).map fun c => if c = '\n' then ' ' else c
    if t = [] || t = "None".data then none else some (String.mk t)

/-- The cleaning `date_str.strip().replace('\n', '-')` done by
`parse_date`. -/
def dateClean (s : String) : List Char :=
  (pyStrip s.data).map fun c => if c = '\n' then '-' else c

/-- `parse_date`: empty input is `None`; otherwise strip, turn embedded
newlines into hyphens, run `strptime('%Y-%m-%d')` and render
`dt.isoformat()`; any failure is caught and yields `None`. -/
def parse_date (s : String) : Option String :=
  if s = "" then none
  else
    let w := dateClean s
    match ymdMatch w with
    | some (y, m, d) =>
      if 1 ≤ y ∧ d ≤ daysInMonth y m then some (isoOfYMD y m d) else none
    | none => none

/-- `parse_date` applied to a nullable cell (`not date_str` is also true of
`None`). -/
def parse_dateO : Option String → Option String
  | none => none
  | some s => parse_date s

/-- The cleaning `value.strip().replace('\n', '')` done by `parse_float`
and `parse_int` before converting. -/
def stripNoNl (s : String) : List Char := (pyStrip s.data).filter (· ≠ '\n')

/-- `parse_float`: empty input is `0.0`; any cleaned value containing
`'E-8'` or `'e-8'` is forced to `0.0`; otherwise `float(value)`, with any
exception caught and turned into `0.0`. -/
def parse_float (s : String) : ℚ :=
  if s = "" then 0
  else
    let v := stripNoNl s
    if occursB "E-8".data v || occursB "e-8".data v then 0
    else (pyFloatLit (String.mk v)).getD 0

/-- `parse_float` applied to a nullable cell. -/
def parse_floatO : Option String → ℚ
  | none => 0
  | some s => parse_float s

/-- `parse_int`: empty input is `0`; otherwise `int(value.strip().replace('\n',''))`,
with any exception caught and turned into `0`. -/
def parse_int (s : String) : ℤ :=
  if s = "" then 0
  else (pyIntLit (String.mk (stripNoNl s))).getD 0

/-- `parse_int` applied to a nullable cell. -/
def parse_intO : Option String → ℤ
  | none => 0
  | some s => parse_int s

/-! ## `extract_tags` -/

/-- The ordered `sports_keywords` table. -/
def sports_keywords : List (String × List String) :=
  [("NFL", ["NFL"]), ("NBA", ["NBA"]), ("EPL", ["EPL", "EPLGAME"]),
   ("Premier League", ["PREMIERLEAGUE"]), ("MLB", ["MLB"]), ("NHL", ["NHL"]),
   ("Soccer", ["SOCCER"]), ("Football", ["FOOTBALL"])]

/-- `extract_tags`: the first league whose keyword occurs in the uppercased
`description symbol` text (first match wins, then break), followed by the
stripped description when the description is non-empty. -/
def extract_tags (description symbol : String) : List String :=
  let text := (description.data ++ ' ' :: symbol.data).map Char.toUpper
  let league := sports_keywords.find? fun kw => kw.2.any fun k => occursB k.data text
  (match league with
   | some (t, _) => [t]
   | none => []) ++ (if description ≠ "" then [pyStripS description] else [])

/-! ## Backtracking regular-expression matcher

The two transaction patterns are sequences of anchored items: single-char
classes under a quantifier, fixed-shape groups, and a literal alternation.
`candidates` lists, in the order Python's leftmost-preference backtracking
engine tries them, the ways one item can consume a prefix of the input;
`mrun` tries candidates in order, continuing with the remaining items, and
requires the whole string to be consumed (the patterns are `^...$` and
`re.match` is used on lines that contain no newline).  The `fuel` argument
only makes the recursion structural: one unit is spent per item, so
`items.length + 1` is always enough. -/

/-- One item of an anchored pattern. -/
inductive Item where
  /-- A capturing group `(X+)` over a single-char class, greedy. -/
  | grpPlus (p : Char → Bool)
  /-- A capturing group of fixed shape, one class per char
  (e.g. `(\d{4}-\d{2}-\d{2})`). -/
  | grpFixed (ps : List (Char → Bool))
  /-- A capturing group of literal alternatives in order (e.g. `(YES|NO)`). -/
  | grpAlts (alts : List (List Char))
  /-- A capturing group `(X*?)` over a single-char class, lazy. -/
  | grpLazyStar (p : Char → Bool)
  /-- Non-capturing `\s+`, greedy. -/
  | wsPlus

/-- Exact match of a fixed shape; returns consumed chars and rest. -/
def fixedMatch : List (Char → Bool) → List Char → Option (List Char × List Char)
  | [], s => some ([], s)
  | _ :: _, [] => none
  | p :: ps, c :: s =>
    if p c then (fixedMatch ps s).map fun cr => (c :: cr.1, cr.2) else none

/-- `[n, n-1, ..., 1]`: the lengths a greedy quantifier tries, in order. -/
def descRange (n : Nat) : List Nat := (List.range n).map fun i => n - i

/-- The ways `it` can consume a prefix of `s`, in backtracking order;
each way is `(captured group, rest)` (`none` = non-capturing item). -/
def candidates : Item → List Char → List (Option (List Char) × List Char)
  | .grpPlus p, s =>
    let run := s.takeWhile p
    (descRange run.length).map fun k => (some (s.take k), s.drop k)
  | .grpFixed ps, s =>
    match fixedMatch ps s with
    | some (a, r) => [(some a, r)]
    | none => []
  | .grpAlts as, s =>
    as.filterMap fun a => if prefB a s then some (some a, s.drop a.length) else none
  | .grpLazyStar p, s =>
    let run := s.takeWhile p
    (List.range (run.length + 1)).map fun k => (some (s.take k), s.drop k)
  | .wsPlus, s =>
    let run := s.takeWhile isWs
    (descRange run.length).map fun k => (none, s.drop k)

/-- Leftmost-preference anchored match: first candidate whose continuation
matches wins; the input must be fully consumed at the end. -/
def mrun : Nat → List Item → List Char → Option (List (List Char))
  | 0, _, _ => none
  | _ + 1, [], s => if s = [] then some [] else none
  | fuel + 1, it :: rest, s =>
    firstSome (fun cr =>
      match mrun fuel rest cr.2 with
      | some caps =>
        some (match cr.1 with
              | some g => g :: caps
              | none => caps)
      | none => none) (candidates it s)

/-- `re.match` of an anchored `^...$` item sequence: the captured groups. -/
def reMatch (items : List Item) (s : List Char) : Option (List (List Char)) :=
  mrun (items.length + 1) items s

/-- The group `(\d{4}-\d{2}-\d{2})` as a fixed shape. -/
def dateShape : List (Char → Bool) :=
  [isDig, isDig, isDig, isDig, (· = '-'), isDig, isDig, (· = '-'), isDig, isDig]

/-- The Purchase-and-Sale pattern
`^(\d{4}-\d{2}-\d{2})\s+(\w+)\s+(\d+)\s+(\d+)\s+(YES|NO)\s+(\S+)\s+(\w+)\s+(\d{4}-\d{2}-\d{2})\s+([-\d.E-]+)\s+(\w+)\s+(.+)$`. -/
def psPattern : List Item :=
  [.grpFixed dateShape, .wsPlus, .grpPlus isWord, .wsPlus, .grpPlus isDig, .wsPlus,
   .grpPlus isDig, .wsPlus, .grpAlts ["YES".data, "NO".data], .wsPlus,
   .grpPlus (fun c => !isWs c), .wsPlus, .grpPlus isWord, .wsPlus,
   .grpFixed dateShape, .wsPlus, .grpPlus isNumCls, .wsPlus, .grpPlus isWord, .wsPlus,
   .grpPlus isDot]

/-- The plain-text transaction pattern
`^(\d{4}-\d{2}-\d{2})\s+(\w+)\s+(\d+)\s+(\d+)\s+(YES|NO)\s+(\S+)\s+(\w+)\s+(\d{4}-\d{2}-\d{2})\s+([\d.E-]+)\s+(\w+)\s+(.*?)\s+(.+)$`. -/
def txtPattern : List Item :=
  [.grpFixed dateShape, .wsPlus, .grpPlus isWord, .wsPlus, .grpPlus isDig, .wsPlus,
   .grpPlus isDig, .wsPlus, .grpAlts ["YES".data, "NO".data], .wsPlus,
   .grpPlus (fun c => !isWs c), .wsPlus, .grpPlus isWord, .wsPlus,
   .grpFixed dateShape, .wsPlus, .grpPlus isNumCls, .wsPlus, .grpPlus isWord, .wsPlus,
   .grpLazyStar isDot, .wsPlus, .grpPlus isDot]

/-! ## The Transaction record and the Parse Result envelope -/

/-- The canonical transaction record (one Python dict per row/line).
Numeric fields use the exact-rational float model; nullable strings are
`Option String` (`none` serializes as JSON `null`). -/
structure Transaction where
  tradeDate : Option String
  assetType : Option String
  qtyLong : ℤ
  qtyShort : ℤ
  subtype : Option String
  symbol : Option String
  description : Option String
  exchange : String
  expDate : Option String
  tradePrice : ℚ
  tradeType : Option String
  commission : ℚ
  exchangeFees : ℚ
  nfaFees : ℚ
  totalFees : ℚ
  currency : Option String
  sourceFile : String
  tags : List String
  deriving Repr, DecidableEq

/-- The result envelope of `parse_pdf` (`error = none` means the key is
absent). -/
structure ParseResult where
  success : Bool
  error : Option String
  filename : String
  transactionCount : Nat
  transactions : List Transaction
  deriving Repr, DecidableEq

/-- Python truthiness of an optional string: `None` and `''` are falsy. -/
def falsyStr : Option String → Bool
  | none => true
  | some s => s = ""

/-- Python `x or ''` for an optional string. -/
def orEmpty (o : Option String) : String := o.getD ""

/-! ## Table parsers (`parse_monthly_trade_confirmations`,
`parse_trade_confirmation_summary`)

A table is a list of rows; a row is a list of nullable cells, as produced
by `pdfplumber`'s table extraction.  Each parser skips rows shorter than 8
cells, selects a layout branch on the column count, resolves fields, drops
the row when the resolved trade date or symbol is falsy, and otherwise
emits one record.  The Python per-row `try/except` guard is dead in the
model: every helper is total. -/

/-- The shared tail of both table parsers: drop the row when the resolved
trade date or symbol is falsy (`if not trade_date or not symbol`), else
attach the tags and emit the record. -/
def guardRec (t : Transaction) : Option Transaction :=
  if falsyStr t.tradeDate || falsyStr t.symbol then none
  else some { t with tags := extract_tags (orEmpty t.description) (orEmpty t.symbol) }

/-- One row of `parse_monthly_trade_confirmations`. -/
def rowRecMonthly (filename : String) (row : List (Option String)) : Option Transaction :=
  if row.length < 8 then none
  else
    let cr := fun i => (row.map clean_value).getD i none
    guardRec <|
      if 13 ≤ row.length then
        { tradeDate := parse_dateO (cr 0), assetType := cr 1,
          qtyLong := parse_intO (cr 2), qtyShort := parse_intO (cr 3),
          subtype := cr 4, symbol := cr 5,
          description := if 12 < row.length then cr 12 else some "",
          exchange := "Kalshi", expDate := parse_dateO (cr 8),
          tradePrice := parse_floatO (cr 9), tradeType := cr 11,
          commission := 0, exchangeFees := 0, nfaFees := 0, totalFees := 0,
          currency := cr 10, sourceFile := filename, tags := [] }
      else
        { tradeDate := parse_dateO (cr 0), assetType := cr 1,
          qtyLong := parse_intO (cr 2), qtyShort := parse_intO (cr 3),
          subtype := cr 4, symbol := if 7 < row.length then cr 7 else some "",
          description := if 8 < row.length then cr 8 else some "",
          exchange := "Kalshi", expDate := none,
          tradePrice := parse_floatO (cr 5), tradeType := some "Trade",
          commission := 0, exchangeFees := 0, nfaFees := 0, totalFees := 0,
          currency := some "USD", sourceFile := filename, tags := [] }

/-- `parse_monthly_trade_confirmations`. -/
def parse_monthly_trade_confirmations (table : List (List (Option String)))
    (filename : String) : List Transaction :=
  if table.length < 2 then []
  else (table.drop 1).filterMap (rowRecMonthly filename)

/-- One row of `parse_trade_confirmation_summary`. -/
def rowRecSummary (filename : String) (row : List (Option String)) : Option Transaction :=
  if row.length < 8 then none
  else
    let cr := fun i => (row.map clean_value).getD i none
    guardRec <|
      if 17 ≤ row.length then
        { tradeDate := parse_dateO (cr 0), assetType := cr 1,
          qtyLong := parse_intO (cr 2), qtyShort := parse_intO (cr 3),
          subtype := cr 4, symbol := cr 7, description := cr 8,
          exchange := "Kalshi",
          expDate := if 11 < row.length then parse_dateO (cr 11) else none,
          tradePrice := parse_floatO (cr 5), tradeType := some "Trade",
          commission := if 12 < row.length then parse_floatO (cr 12) else 0,
          exchangeFees := if 13 < row.length then parse_floatO (cr 13) else 0,
          nfaFees := if 14 < row.length then parse_floatO (cr 14) else 0,
          totalFees := if 15 < row.length then parse_floatO (cr 15) else 0,
          currency := if 16 < row.length then cr 16 else some "USD",
          sourceFile := filename, tags := [] }
      else if 10 ≤ row.length then
        { tradeDate := parse_dateO (cr 0), assetType := cr 1,
          qtyLong := parse_intO (cr 2), qtyShort := parse_intO (cr 3),
          subtype := cr 4, symbol := if 7 < row.length then cr 7 else some "",
          description := if 8 < row.length then cr 8 else some "",
          exchange := "Kalshi", expDate := none,
          tradePrice := parse_floatO (cr 5), tradeType := some "Trade",
          commission := 0, exchangeFees := 0, nfaFees := 0, totalFees := 0,
          currency := some "USD", sourceFile := filename, tags := [] }
      else
        { tradeDate := parse_dateO (cr 0), assetType := cr 1,
          qtyLong := parse_intO (cr 2), qtyShort := parse_intO (cr 3),
          subtype := cr 4, symbol := if 6 < row.length then cr 6 else some "",
          description := if 7 < row.length then cr 7 else some "",
          exchange := "Kalshi", expDate := none,
          tradePrice := parse_floatO (cr 5), tradeType := some "Trade",
          commission := 0, exchangeFees := 0, nfaFees := 0, totalFees := 0,
          currency := some "USD", sourceFile := filename, tags := [] }

/-- `parse_trade_confirmation_summary`. -/
def parse_trade_confirmation_summary (table : List (List (Option String)))
    (filename : String) : List Transaction :=
  if table.length < 2 then []
  else (table.drop 1).filterMap (rowRecSummary filename)

/-! ## Line parsers (`parse_text_transactions`,
`parse_purchase_and_sale_summary_text`) -/

/-- One (already stripped, non-empty) line of `parse_text_transactions`:
match the plain-text pattern, drop on falsy trade date or symbol. -/
def lineRecText (filename : String) (line : List Char) : Option Transaction :=
  match reMatch txtPattern line with
  | none => none
  | some gs =>
    let g := fun i => String.mk (gs.getD i [])
    let trade_date := parse_date (g 0)
    let symbol := g 5
    if falsyStr trade_date || symbol = "" then none
    else
      some { tradeDate := trade_date, assetType := some (g 1),
             qtyLong := parse_int (g 2), qtyShort := parse_int (g 3),
             subtype := some (g 4), symbol := some symbol,
             description := some (pyStripS (g 11)), exchange := g 6,
             expDate := parse_date (g 7), tradePrice := parse_float (g 8),
             tradeType := some (pyStripS (g 10)),
             commission := 0, exchangeFees := 0, nfaFees := 0, totalFees := 0,
             currency := some (g 9), sourceFile := filename,
             tags := extract_tags (pyStripS (g 11)) symbol }

/-- The line loop of `parse_text_transactions`. -/
def txtLoop (filename : String) : List (List Char) → List Transaction
  | [] => []
  | l :: ls =>
    if pyStrip l = [] then txtLoop filename ls
    else
      match lineRecText filename (pyStrip l) with
      | some r => r :: txtLoop filename ls
      | none => txtLoop filename ls

/-- `parse_text_transactions`. -/
def parse_text_transactions (text filename : String) : List Transaction :=
  txtLoop filename (splitNl text.data)

/-- The subsequent-section headers at which scanning stops. -/
def sectionMarkers : List String := ["Journal Entries", "Open Positions", "Account Summary"]

/-- Does a line contain one of the `sectionMarkers`? -/
def isBoundaryLine (l : List Char) : Bool :=
  sectionMarkers.any fun m => occursB m.data l

/-- One (already stripped, non-empty, non-boundary) line of
`parse_purchase_and_sale_summary_text`. -/
def lineRecPS (filename : String) (line : List Char) : Option Transaction :=
  match reMatch psPattern line with
  | none => none
  | some gs =>
    let g := fun i => String.mk (gs.getD i [])
    let trade_date := parse_date (g 0)
    let symbol := g 5
    if falsyStr trade_date || symbol = "" then none
    else
      some { tradeDate := trade_date, assetType := some (g 1),
             qtyLong := parse_int (g 2), qtyShort := parse_int (g 3),
             subtype := some (g 4), symbol := some symbol,
             description := some (pyStripS (g 10)), exchange := g 6,
             expDate := parse_date (g 7), tradePrice := parse_float (g 8),
             tradeType := some "Closed Position",
             commission := 0, exchangeFees := 0, nfaFees := 0, totalFees := 0,
             currency := some (g 9), sourceFile := filename,
             tags := extract_tags (pyStripS (g 10)) symbol }

/-- The line loop of `parse_purchase_and_sale_summary_text`: empty lines
are skipped, a line containing a `sectionMarkers` entry breaks the loop,
non-matching lines are skipped. -/
def psLoop (filename : String) : List (List Char) → List Transaction
  | [] => []
  | l :: ls =>
    if pyStrip l = [] then psLoop filename ls
    else if isBoundaryLine (pyStrip l) then []
    else
      match lineRecPS filename (pyStrip l) with
      | some r => r :: psLoop filename ls
      | none => psLoop filename ls

/-- `parse_purchase_and_sale_summary_text`. -/
def parse_purchase_and_sale_summary_text (text filename : String) : List Transaction :=
  psLoop filename (splitNl text.data)

/-! ## The engine driver (`parse_pdf`) -/

/-- `os.path.basename` (POSIX): the part after the last `/`. -/
def basename (p : String) : String :=
  String.mk (p.data.reverse.takeWhile (· ≠ '/')).reverse

/-- The section-header phrase. -/
def pssHeader : String := "Purchase and Sale Summary"

/-- The failure-shaped result envelope. -/
def mkFailure (e filename : String) : ParseResult :=
  { success := false, error := some e, filename := filename,
    transactionCount := 0, transactions := [] }

/-- `all_text`: every page's text joined with `"\n"`, skipping pages whose
text is `None` or empty (`if text:`). -/
def extractAllText (pages : List (Option String)) : List Char :=
  pages.foldl
    (fun acc t =>
      match t with
      | some tx => if tx.data = [] then acc else acc ++ tx.data ++ ['\n']
      | none => acc)
    []

/-- The start-index loop: `i + 1` for the first line containing the
header. -/
def findStartAux : List (List Char) → Nat → Option Nat
  | [], _ => none
  | l :: ls, i => if occursB pssHeader.data l then some (i + 1) else findStartAux ls (i + 1)

/-- `start_idx`. -/
def findStart (lines : List (List Char)) : Option Nat := findStartAux lines 0

/-- The end-index loop over `lines[start:]`. -/
def findEndAux : List (List Char) → Nat → Option Nat
  | [], _ => none
  | l :: ls, i => if isBoundaryLine l then some i else findEndAux ls (i + 1)

/-- `end_idx`: the first boundary line at or after `start`, else
`len(lines)`. -/
def findEnd (lines : List (List Char)) (start : Nat) : Nat :=
  (findEndAux (lines.drop start) start).getD lines.length

/-- Python `lines[s:e]` for `0 ≤ s, e`. -/
def pySlice (s e : Nat) (lines : List (List Char)) : List (List Char) :=
  (lines.take e).drop s

/-- `lines[start_idx:end_idx]`, or `none` when no line contains the header
(in which case Python's `range(None, ...)` raises a `TypeError`). -/
def sectionLines (lines : List (List Char)) : Option (List (List Char)) :=
  (findStart lines).map fun s => pySlice s (findEnd lines s) lines

/-- The message of the `TypeError` raised by `range(start_idx, ...)` when
`start_idx` is still `None`. -/
def typeErrMsg : String := "'NoneType' object cannot be interpreted as an integer"

/-- `parse_pdf`: extract all text (the collaborator may instead raise, the
`.error` case), require the section header, slice the section out, parse
it, and assemble the envelope.  Every exception is caught at this boundary
and becomes a failure-shaped result carrying the exception's message. -/
def parse_pdf (pages : Except String (List (Option String))) (pdf_path : String) :
    ParseResult :=
  let filename := basename pdf_path
  match pages with
  | .error e => mkFailure e filename
  | .ok pgs =>
    let all_text := extractAllText pgs
    if occursB pssHeader.data all_text then
      let lines := splitNl all_text
      match sectionLines lines with
      | none => mkFailure typeErrMsg filename
      | some sect =>
        let txs := parse_purchase_and_sale_summary_text
          (String.mk (List.intercalate ['\n'] sect)) filename
        { success := true, error := none, filename := filename,
          transactionCount := txs.length, transactions := txs }
    else mkFailure "Purchase and Sale Summary section not found" filename

/-! ## Spec-side definitions

These follow the wording of the specification (not the source); they are
compared against the source-derived functions in the claim theorems. -/

/-- Spec-side: the strict `YYYY-MM-DD` textual pattern — exactly four
digits, hyphen, two digits, hyphen, two digits. -/
def strictYMD : List Char → Bool
  | [a, b, c, d, h1, e, f, h2, g, i] =>
    isDig a && isDig b && isDig c && isDig d && h1 = '-' &&
    isDig e && isDig f && h2 = '-' && isDig g && isDig i
  | _ => false

/-- The one- and two-digit decimal spellings of `n ≤ 31` accepted by
`%m`/`%d`: `n` without padding, and zero-padded when `n < 10`. -/
def reprs2 (n : Nat) : List (List Char) :=
  if n < 10 then [[digChar n], ['0', digChar n]]
  else [[digChar (n / 10), digChar (n % 10)]]

/-- Spec-side (amended C5): `w` is `YYYY-M(M)-D(D)` — a four-digit year
with value `y`, a one- or two-digit month with value `m ∈ [1,12]`, and a
one- or two-digit day with value `d ∈ [1,31]`. -/
def laxYMD (w : List Char) (y m d : Nat) : Prop :=
  ∃ ys ms ds, w = ys ++ '-' :: (ms ++ '-' :: ds) ∧ ys.length = 4 ∧
    (∀ c ∈ ys, isDig c = true) ∧ digitsVal ys = y ∧
    ms ∈ reprs2 m ∧ ds ∈ reprs2 d ∧ 1 ≤ m ∧ m ≤ 12 ∧ 1 ≤ d ∧ d ≤ 31

/-- Spec-side: the mandatory-field invariant — a present trade date and a
non-empty symbol. -/
def hasMandatory (r : Transaction) : Prop :=
  (∃ td, r.tradeDate = some td) ∧ ∃ sym, r.symbol = some sym ∧ sym ≠ ""

/-- The end-to-end example line of the specification (§8). -/
def c4line : String :=
  "2025-09-01 SW 20 0 YES KXEPLGAME-25SEP14MCIMUN-MCI Kalshi 2025-09-14 -10.08 USD Manchester City"

/-- A second well-formed Purchase-and-Sale line, used to exercise batch
independence. -/
def c8line3 : String :=
  "2025-09-02 SW 5 0 NO KXNFLGAME-FOO-BAR Kalshi 2025-09-20 3.50 USD Some Team"

/-- The record the specification requires for `c4line`. -/
def c4rec : Transaction :=
  { tradeDate := some "2025-09-01T00:00:00", assetType := some "SW",
    qtyLong := 20, qtyShort := 0, subtype := some "YES",
    symbol := some "KXEPLGAME-25SEP14MCIMUN-MCI",
    description := some "Manchester City", exchange := "Kalshi",
    expDate := some "2025-09-14T00:00:00", tradePrice := mkRat (-1008) 100,
    tradeType := some "Closed Position",
    commission := 0, exchangeFees := 0, nfaFees := 0, totalFees := 0,
    currency := some "USD", sourceFile := "statement.pdf",
    tags := ["EPL", "Manchester City"] }

/-! # Lemmas and claim theorems -/

/-! ## String-containment lemmas -/

theorem prefB_iff (n l : List Char) : prefB n l = true ↔ ∃ t, l = n ++ t := by
  induction n generalizing l with
  | nil => simp [prefB]
  | cons c n ih =>
    cases l with
    | nil => simp [prefB]
    | cons x l =>
      simp only [prefB, Bool.and_eq_true, decide_eq_true_eq, ih, List.cons_append,
        List.cons.injEq]
      constructor
      · rintro ⟨rfl, t, rfl⟩
        exact ⟨t, rfl, rfl⟩
      · rintro ⟨t, rfl, rfl⟩
        exact ⟨rfl, t, rfl⟩

theorem occursB_iff (n l : List Char) : occursB n l = true ↔ Occurs n l := by
  induction l with
  | nil =>
    simp only [occursB, prefB_iff, Occurs]
    constructor
    · rintro ⟨t, ht⟩
      exact ⟨[], t, ht⟩
    · rintro ⟨a, b, h⟩
      rcases List.append_eq_nil.mp (List.append_eq_nil.mp h.symm).1 with ⟨rfl, rfl⟩
      exact ⟨b, h⟩
  | cons x l ih =>
    simp only [occursB, Bool.or_eq_true, prefB_iff, ih, Occurs]
    constructor
    · rintro (⟨t, ht⟩ | ⟨a, b, h⟩)
      · exact ⟨[], t, ht⟩
      · exact ⟨x :: a, b, by simp [h]⟩
    · rintro ⟨a, b, h⟩
      cases a with
      | nil => exact Or.inl ⟨b, by simpa using h⟩
      | cons y a =>
        rw [List.cons_append, List.cons_append, List.cons.injEq] at h
        exact Or.inr ⟨a, b, h.2⟩

theorem occurs_dropWhile {p : Char → Bool} {n l : List Char} (h : Occurs n l)
    (hn : ∀ c ∈ n, p c = false) : Occurs n (l.dropWhile p) := by
  obtain ⟨a, b, rfl⟩ := h
  induction a with
  | nil =>
    cases n with
    | nil => exact ⟨[], List.dropWhile p ([] ++ [] ++ b), by simp⟩
    | cons c n =>
      refine ⟨[], b, ?_⟩
      simp only [List.nil_append, List.cons_append, List.dropWhile_cons,
        hn c (List.mem_cons_self c n)]
      simp
  | cons x a ih =>
    by_cases hx : p x = true
    · simpa [List.dropWhile_cons, hx] using ih
    · refine ⟨x :: a, b, ?_⟩
      simp [List.dropWhile_cons, hx]

theorem occurs_reverse {n l : List Char} (h : Occurs n l) :
    Occurs n.reverse l.reverse := by
  obtain ⟨a, b, rfl⟩ := h
  exact ⟨b.reverse, a.reverse, by simp⟩

theorem occurs_pyStrip {n l : List Char} (h : Occurs n l)
    (hn : ∀ c ∈ n, isWs c = false) : Occurs n (pyStrip l) := by
  have h1 := occurs_dropWhile h hn
  have h2 := occurs_reverse h1
  have h3 := occurs_dropWhile h2 (by simpa using hn)
  have h4 := occurs_reverse h3
  simpa [pyStrip] using h4

theorem occurs_filter {p : Char → Bool} {n l : List Char} (h : Occurs n l)
    (hn : ∀ c ∈ n, p c = true) : Occurs n (l.filter p) := by
  obtain ⟨a, b, rfl⟩ := h
  exact ⟨a.filter p, b.filter p,
    by simp [List.filter_append, List.filter_eq_self.mpr hn]⟩

theorem dropWhile_eq_self_of {p : Char → Bool} {l : List Char}
    (h : ∀ c ∈ l, p c = false) : l.dropWhile p = l := by
  cases l with
  | nil => rfl
  | cons c r => simp [List.dropWhile_cons, h c (List.mem_cons_self c r)]

theorem pyStrip_eq_self {l : List Char} (h : ∀ c ∈ l, isWs c = false) :
    pyStrip l = l := by
  unfold pyStrip
  rw [dropWhile_eq_self_of h, dropWhile_eq_self_of (by simpa using h),
    List.reverse_reverse]

/-! ## Generic search / option lemmas -/

theorem firstSome_eq_some {α β : Type} {f : α → Option β} {l : List α} {b : β}
    (h : firstSome f l = some b) : ∃ a ∈ l, f a = some b := by
  induction l with
  | nil => simp [firstSome] at h
  | cons a as ih =>
    rw [firstSome] at h
    cases hf : f a with
    | some b' =>
      rw [hf] at h
      exact ⟨a, List.mem_cons_self a as, hf.trans h⟩
    | none =>
      rw [hf] at h
      obtain ⟨a', ha', hfa'⟩ := ih h
      exact ⟨a', List.mem_cons_of_mem a ha', hfa'⟩

theorem firstSome_ne_none {α β : Type} {f : α → Option β} {l : List α}
    (h : ∃ a ∈ l, f a ≠ none) : firstSome f l ≠ none := by
  induction l with
  | nil => simp at h
  | cons a as ih =>
    rw [firstSome]
    obtain ⟨a', ha', hfa'⟩ := h
    cases hf : f a with
    | some b => simp
    | none =>
      rcases List.mem_cons.mp ha' with rfl | ha'
      · exact absurd hf hfa'
      · exact ih ⟨a', ha', hfa'⟩

theorem falsyStr_eq_false {o : Option String} (h : falsyStr o = false) :
    ∃ s, o = some s ∧ s ≠ "" := by
  cases o with
  | none => simp [falsyStr] at h
  | some s =>
    refine ⟨s, rfl, fun heq => ?_⟩
    rw [heq] at h
    simp [falsyStr] at h

/-! ## Character-class facts -/

theorem isDig_isWs_false {c : Char} (h : isDig c = true) : isWs c = false := by
  cases hw : isWs c with
  | false => rfl
  | true =>
    exfalso
    simp only [isWs, Bool.or_eq_true, decide_eq_true_eq] at hw
    rcases hw with ((((rfl | rfl) | rfl) | rfl) | rfl) | rfl <;>
      exact absurd h (by decide)

theorem isDig_ne_nl {c : Char} (h : isDig c = true) : c ≠ '\n' := by
  rintro rfl
  exact absurd h (by decide)

/-! ## Claim C1 -/

/-- C1: `parse_pdf` never raises past its boundary — in the model every
function is total, and the only boundary exceptions are the extraction
collaborator's.  When extraction raises with message `e`, `parse_pdf`
returns the failure-shaped envelope with `success = false`, `error = e`,
`transactionCount = 0` and no transactions. -/
theorem c1_exception_becomes_failure (e path : String) :
    parse_pdf (.error e) path =
      { success := false, error := some e, filename := basename path,
        transactionCount := 0, transactions := [] } := rfl

/-! ## Claim C2 -/

/-- C2: when the extracted text does not contain the phrase
`'Purchase and Sale Summary'`, `parse_pdf` fails with the specific error
message, zero transactions and an empty list. -/
theorem c2_missing_header_failure (pgs : List (Option String)) (path : String)
    (h : ¬ Occurs pssHeader.data (extractAllText pgs)) :
    parse_pdf (.ok pgs) path =
      { success := false, error := some "Purchase and Sale Summary section not found",
        filename := basename path, transactionCount := 0, transactions := [] } := by
  have hb : occursB pssHeader.data (extractAllText pgs) = false := by
    cases hh : occursB pssHeader.data (extractAllText pgs) with
    | true => exact absurd ((occursB_iff _ _).mp hh) h
    | false => rfl
  simp [parse_pdf, hb, mkFailure]

/-- Witness for C2 at a concrete document. -/
theorem c2_missing_header_failure_witness :
    parse_pdf (.ok [some "hello"]) "a/b.pdf" =
      { success := false, error := some "Purchase and Sale Summary section not found",
        filename := "b.pdf", transactionCount := 0, transactions := [] } := by
  have h : ¬ Occurs pssHeader.data (extractAllText [some "hello"]) :=
    fun hc => absurd ((occursB_iff _ _).mpr hc) (by decide)
  exact (c2_missing_header_failure [some "hello"] "a/b.pdf" h).trans (by decide)

/-! ## Claims C6, C7, C10 (`parse_float` / `parse_int`) -/

theorem parse_float_zero_of_e8 {s : String}
    (h : (occursB "E-8".data (stripNoNl s) || occursB "e-8".data (stripNoNl s)) = true) :
    parse_float s = 0 := by
  simp [parse_float, h]

/-- C6: every scientific-notation float literal whose exponent is written
`-8` — a mantissa over sign/digit/point characters followed by `e-8` or
`E-8` — is normalized by `parse_float` to exactly `0`. -/
theorem c6_sci_exponent_minus8_is_zero (m : List Char) (hne : m ≠ [])
    (hm : ∀ c ∈ m, isDig c = true ∨ c = '.' ∨ c = '-' ∨ c = '+') :
    parse_float (String.mk (m ++ "e-8".data)) = 0 ∧
    parse_float (String.mk (m ++ "E-8".data)) = 0 := by
  have hws : ∀ (suf : List Char), suf = "e-8".data ∨ suf = "E-8".data →
      ∀ c ∈ m ++ suf, isWs c = false := by
    rintro suf hsuf c hc
    rcases List.mem_append.mp hc with hcm | hcs
    · rcases hm c hcm with hd | rfl | rfl | rfl
      · exact isDig_isWs_false hd
      all_goals rfl
    · rcases hsuf with rfl | rfl <;>
        (simp only [String.data] at hcs; fin_cases hcs <;> rfl)
  have hnl : ∀ (suf : List Char), suf = "e-8".data ∨ suf = "E-8".data →
      ∀ c ∈ m ++ suf, decide (c ≠ '\n') = true := by
    rintro suf hsuf c hc
    apply decide_eq_true
    intro hceq
    subst hceq
    rcases List.mem_append.mp hc with hcm | hcs
    · rcases hm '\n' hcm with hd | h' | h' | h' <;> first
        | exact absurd hd (by decide)
        | exact absurd h' (by decide)
    · rcases hsuf with rfl | rfl <;> revert hcs <;> decide
  constructor
  · apply parse_float_zero_of_e8
    have hv : stripNoNl (String.mk (m ++ "e-8".data)) = m ++ "e-8".data := by
      unfold stripNoNl
      rw [pyStrip_eq_self (hws _ (Or.inl rfl))]
      exact List.filter_eq_self.mpr (hnl _ (Or.inl rfl))
    rw [hv]
    have : Occurs "e-8".data (m ++ "e-8".data) := ⟨m, [], by simp⟩
    rw [(occursB_iff _ _).mpr this]
    simp
  · apply parse_float_zero_of_e8
    have hv : stripNoNl (String.mk (m ++ "E-8".data)) = m ++ "E-8".data := by
      unfold stripNoNl
      rw [pyStrip_eq_self (hws _ (Or.inr rfl))]
      exact List.filter_eq_self.mpr (hnl _ (Or.inr rfl))
    rw [hv]
    have : Occurs "E-8".data (m ++ "E-8".data) := ⟨m, [], by simp⟩
    rw [(occursB_iff _ _).mpr this]
    simp

/-- Witness for C6 at the literal `1.5e-8` / `1.5E-8`. -/
theorem c6_sci_exponent_minus8_is_zero_witness :
    parse_float (String.mk ("1.5".data ++ "e-8".data)) = 0 ∧
    parse_float (String.mk ("1.5".data ++ "E-8".data)) = 0 :=
  c6_sci_exponent_minus8_is_zero "1.5".data (by decide) (by decide)

/-- C7: for empty input or input whose cleaned text is not a well-formed
numeric literal, `parse_float` returns `0.0` and `parse_int` returns `0`
(both functions are total by construction — exceptions from `float`/`int`
are modelled by the `none` results being defaulted here). -/
theorem c7_malformed_numeric_defaults (s : String) :
    (s = "" ∨ pyFloatLit (String.mk (stripNoNl s)) = none → parse_float s = 0) ∧
    (s = "" ∨ pyIntLit (String.mk (stripNoNl s)) = none → parse_int s = 0) := by
  constructor
  · rintro (rfl | h)
    · simp [parse_float]
    · by_cases hs : s = ""
      · simp [hs, parse_float]
      · simp only [parse_float, hs, if_false]
        split
        · rfl
        · rw [h]
          rfl
  · rintro (rfl | h)
    · simp [parse_int]
    · by_cases hs : s = ""
      · simp [hs, parse_int]
      · simp only [parse_int, hs, if_false]
        rw [h]
        rfl

/-- Witness for C7 at the malformed input `"abc"`. -/
theorem c7_malformed_numeric_defaults_witness :
    parse_float "abc" = 0 ∧ parse_int "abc" = 0 :=
  ⟨(c7_malformed_numeric_defaults "abc").1 (Or.inr (by decide)),
   (c7_malformed_numeric_defaults "abc").2 (Or.inr (by decide))⟩

/-- C10: `parse_float` forces `0` for EVERY input containing `'E-8'` or
`'e-8'` anywhere — including well-formed literals whose exponent is not
`-8`, such as `1.5E-80`, whose denoted value is the nonzero
`3 / (2 * 10^80)`. -/
theorem c10_e8_substring_overreach :
    (∀ s : String, Occurs "E-8".data s.data ∨ Occurs "e-8".data s.data →
      parse_float s = 0) ∧
    parse_float "1.5E-80" = 0 ∧
    pyFloatLit "1.5E-80" = some (mkRat 3 (2 * 10 ^ 80)) ∧
    mkRat 3 (2 * 10 ^ 80) ≠ 0 := by
  refine ⟨?_, by decide, by decide, by decide⟩
  intro s h
  apply parse_float_zero_of_e8
  rcases h with h | h
  · have h1 := occurs_pyStrip h (by decide)
    have h2 := occurs_filter h1 (p := fun c => decide (c ≠ '\n')) (by decide)
    have e1 : occursB "E-8".data (stripNoNl s) = true := (occursB_iff _ _).mpr h2
    simp [e1]
  · have h1 := occurs_pyStrip h (by decide)
    have h2 := occurs_filter h1 (p := fun c => decide (c ≠ '\n')) (by decide)
    have e1 : occursB "e-8".data (stripNoNl s) = true := (occursB_iff _ _).mpr h2
    simp [e1]

/-- Witness for C10 at a string containing `E-8` mid-text. -/
theorem c10_e8_substring_overreach_witness : parse_float "xE-8y" = 0 :=
  c10_e8_substring_overreach.1 "xE-8y" (Or.inl ((occursB_iff _ _).mp (by decide)))

/-! ## Claim C3 (mandatory fields) -/

theorem guardRec_mandatory {t r : Transaction} (h : guardRec t = some r) :
    hasMandatory r := by
  unfold guardRec at h
  split at h
  · exact absurd h (by simp)
  · next hcond =>
    have h1 : falsyStr t.tradeDate = false := by
      cases hx : falsyStr t.tradeDate with
      | false => rfl
      | true => exact absurd (by simp [hx]) hcond
    have h2 : falsyStr t.symbol = false := by
      cases hx : falsyStr t.symbol with
      | false => rfl
      | true => exact absurd (by simp [hx]) hcond
    injection h with h
    subst h
    obtain ⟨d, hd, _⟩ := falsyStr_eq_false h1
    obtain ⟨sym, hs, hsne⟩ := falsyStr_eq_false h2
    exact ⟨⟨d, hd⟩, sym, hs, hsne⟩

theorem lineRecPS_mandatory {fname : String} {l : List Char} {r : Transaction}
    (h : lineRecPS fname l = some r) : hasMandatory r := by
  simp only [lineRecPS] at h
  split at h
  · exact absurd h (by simp)
  · split at h
    · exact absurd h (by simp)
    · next hcond =>
      rw [Bool.or_eq_true, not_or] at hcond
      obtain ⟨hc1, hc2⟩ := hcond
      obtain ⟨d, hd, _⟩ := falsyStr_eq_false (Bool.eq_false_iff.mpr hc1)
      injection h with h
      subst h
      refine ⟨⟨d, hd⟩, _, rfl, ?_⟩
      intro heq
      exact hc2 (decide_eq_true heq)

theorem lineRecText_mandatory {fname : String} {l : List Char} {r : Transaction}
    (h : lineRecText fname l = some r) : hasMandatory r := by
  simp only [lineRecText] at h
  split at h
  · exact absurd h (by simp)
  · split at h
    · exact absurd h (by simp)
    · next hcond =>
      rw [Bool.or_eq_true, not_or] at hcond
      obtain ⟨hc1, hc2⟩ := hcond
      obtain ⟨d, hd, _⟩ := falsyStr_eq_false (Bool.eq_false_iff.mpr hc1)
      injection h with h
      subst h
      refine ⟨⟨d, hd⟩, _, rfl, ?_⟩
      intro heq
      exact hc2 (decide_eq_true heq)

theorem psLoop_mandatory {fname : String} {ls : List (List Char)} {r : Transaction}
    (h : r ∈ psLoop fname ls) : hasMandatory r := by
  induction ls with
  | nil => simp [psLoop] at h
  | cons l ls ih =>
    rw [psLoop] at h
    split at h
    · exact ih h
    · split at h
      · simp at h
      · cases hm : lineRecPS fname (pyStrip l) with
        | some r' =>
          rw [hm] at h
          rcases List.mem_cons.mp h with rfl | h
          · exact lineRecPS_mandatory hm
          · exact ih h
        | none =>
          rw [hm] at h
          exact ih h

theorem txtLoop_mandatory {fname : String} {ls : List (List Char)} {r : Transaction}
    (h : r ∈ txtLoop fname ls) : hasMandatory r := by
  induction ls with
  | nil => simp [txtLoop] at h
  | cons l ls ih =>
    rw [txtLoop] at h
    split at h
    · exact ih h
    · cases hm : lineRecText fname (pyStrip l) with
      | some r' =>
        rw [hm] at h
        rcases List.mem_cons.mp h with rfl | h
        · exact lineRecText_mandatory hm
        · exact ih h
      | none =>
        rw [hm] at h
        exact ih h

/-- C3: every record emitted by any of the four parsers has a present
trade date and a non-empty symbol; a candidate for which either cannot be
resolved is dropped, producing no record (the output lists simply omit it)
and no error (the parsers' only output is the record list). -/
theorem c3_mandatory_invariant (fname : String) :
    (∀ table r, r ∈ parse_monthly_trade_confirmations table fname → hasMandatory r) ∧
    (∀ table r, r ∈ parse_trade_confirmation_summary table fname → hasMandatory r) ∧
    (∀ text r, r ∈ parse_text_transactions text fname → hasMandatory r) ∧
    (∀ text r, r ∈ parse_purchase_and_sale_summary_text text fname → hasMandatory r) := by
  refine ⟨?_, ?_, ?_, ?_⟩
  · intro table r h
    unfold parse_monthly_trade_confirmations at h
    split at h
    · simp at h
    · obtain ⟨row, _, hrow⟩ := List.mem_filterMap.mp h
      simp only [rowRecMonthly] at hrow
      split at hrow
      · exact absurd hrow (by simp)
      · exact guardRec_mandatory hrow
  · intro table r h
    unfold parse_trade_confirmation_summary at h
    split at h
    · simp at h
    · obtain ⟨row, _, hrow⟩ := List.mem_filterMap.mp h
      simp only [rowRecSummary] at hrow
      split at hrow
      · exact absurd hrow (by simp)
      · exact guardRec_mandatory hrow
  · intro text r h
    exact txtLoop_mandatory h
  · intro text r h
    exact psLoop_mandatory h

/-- Witness for C3 at the concrete Purchase-and-Sale example line. -/
theorem c3_mandatory_invariant_witness : hasMandatory c4rec :=
  (c3_mandatory_invariant "statement.pdf").2.2.2 c4line c4rec (by decide)

/-! ## Claim C8 (line independence) -/

theorem psLoop_skips_bad {fname : String} {bad : List Char}
    (hbad : pyStrip bad = [] ∨
      (isBoundaryLine (pyStrip bad) = false ∧ lineRecPS fname (pyStrip bad) = none)) :
    ∀ A B, psLoop fname (A ++ bad :: B) = psLoop fname (A ++ B) := by
  intro A B
  induction A with
  | nil =>
    simp only [List.nil_append]
    rw [psLoop]
    rcases hbad with he | ⟨hb, hn⟩
    · simp [he]
    · by_cases he : pyStrip bad = []
      · simp [he]
      · simp [he, hb, hn]
  | cons x A ih =>
    simp only [List.cons_append]
    rw [psLoop, psLoop]
    by_cases h1 : pyStrip x = []
    · simpa [h1] using ih
    · by_cases h2 : isBoundaryLine (pyStrip x) = true
      · simp [h1, h2]
      · cases hm : lineRecPS fname (pyStrip x) <;> simp [h1, h2, hm, ih]

theorem txtLoop_skips_bad {fname : String} {bad : List Char}
    (hbad : pyStrip bad = [] ∨ lineRecText fname (pyStrip bad) = none) :
    ∀ A B, txtLoop fname (A ++ bad :: B) = txtLoop fname (A ++ B) := by
  intro A B
  induction A with
  | nil =>
    simp only [List.nil_append]
    rw [txtLoop]
    rcases hbad with he | hn
    · simp [he]
    · by_cases he : pyStrip bad = []
      · simp [he]
      · simp [he, hn]
  | cons x A ih =>
    simp only [List.cons_append]
    rw [txtLoop, txtLoop]
    by_cases h1 : pyStrip x = []
    · simpa [h1] using ih
    · cases hm : lineRecText fname (pyStrip x) <;> simp [h1, hm, ih]

theorem psLoop_eq_filterMap {fname : String} {ls : List (List Char)}
    (h : ∀ l ∈ ls, pyStrip l ≠ [] ∧ isBoundaryLine (pyStrip l) = false) :
    psLoop fname ls = ls.filterMap fun l => lineRecPS fname (pyStrip l) := by
  induction ls with
  | nil => rfl
  | cons l ls ih =>
    obtain ⟨h1, h2⟩ := h l (List.mem_cons_self l ls)
    have ih' := ih fun x hx => h x (List.mem_cons_of_mem l hx)
    rw [psLoop, List.filterMap_cons]
    cases hm : lineRecPS fname (pyStrip l) <;> simp [h1, h2, hm, ih']

theorem txtLoop_eq_filterMap {fname : String} {ls : List (List Char)}
    (h : ∀ l ∈ ls, pyStrip l ≠ []) :
    txtLoop fname ls = ls.filterMap fun l => lineRecText fname (pyStrip l) := by
  induction ls with
  | nil => rfl
  | cons l ls ih =>
    have h1 := h l (List.mem_cons_self l ls)
    have ih' := ih fun x hx => h x (List.mem_cons_of_mem l hx)
    rw [txtLoop, List.filterMap_cons]
    cases hm : lineRecText fname (pyStrip l) <;> simp [h1, hm, ih']

/-- C8 (amended): replacing a line by a non-matching one leaves the other
lines' records unchanged and in order — for the Purchase-and-Sale parser
only when the replacement also contains no section-end marker (a marker
line instead truncates the batch, see the counterexample); for the
plain-text parser unconditionally. -/
theorem c8_line_independence_amended (fname : String) (A : List (List Char))
    (bad : List Char) (B : List (List Char)) :
    ((pyStrip bad = [] ∨
        (isBoundaryLine (pyStrip bad) = false ∧ lineRecPS fname (pyStrip bad) = none)) →
      psLoop fname (A ++ bad :: B) = psLoop fname (A ++ B)) ∧
    ((pyStrip bad = [] ∨ lineRecText fname (pyStrip bad) = none) →
      txtLoop fname (A ++ bad :: B) = txtLoop fname (A ++ B)) ∧
    ((∀ l ∈ A ++ B, pyStrip l ≠ [] ∧ isBoundaryLine (pyStrip l) = false) →
      psLoop fname (A ++ B) = (A ++ B).filterMap fun l => lineRecPS fname (pyStrip l)) ∧
    ((∀ l ∈ A ++ B, pyStrip l ≠ []) →
      txtLoop fname (A ++ B) = (A ++ B).filterMap fun l => lineRecText fname (pyStrip l)) :=
  ⟨fun hbad => psLoop_skips_bad hbad A B,
   fun hbad => txtLoop_skips_bad hbad A B,
   fun h => psLoop_eq_filterMap h,
   fun h => txtLoop_eq_filterMap h⟩

/-- Witness for C8 (amended) at a concrete batch with a non-matching,
non-marker middle line. -/
theorem c8_line_independence_amended_witness :
    psLoop "f" [c4line.data, "xyz".data, c8line3.data] =
      psLoop "f" [c4line.data, c8line3.data] ∧
    txtLoop "f" [c4line.data, "xyz".data, c8line3.data] =
      txtLoop "f" [c4line.data, c8line3.data] :=
  ⟨(c8_line_independence_amended "f" [c4line.data] "xyz".data [c8line3.data]).1
      (Or.inr (by decide)),
   (c8_line_independence_amended "f" [c4line.data] "xyz".data [c8line3.data]).2.1
      (Or.inr (by decide))⟩

/-- Counterexample to C8 as stated: the lines `c4line` and `c8line3` each
individually produce a record, `"Open Positions"` is a non-matching line,
yet parsing the three-line batch does not yield the two records of the
other lines — the marker line truncates the Purchase-and-Sale batch. -/
theorem c8_counterexample :
    (lineRecPS "f" (pyStrip c4line.data)).isSome = true ∧
    (lineRecPS "f" (pyStrip c8line3.data)).isSome = true ∧
    lineRecPS "f" (pyStrip "Open Positions".data) = none ∧
    (psLoop "f" [c4line.data, "Open Positions".data, c8line3.data]).length = 1 ∧
    (psLoop "f" [c4line.data, c8line3.data]).length = 2 ∧
    psLoop "f" [c4line.data, "Open Positions".data, c8line3.data] ≠
      psLoop "f" [c4line.data, c8line3.data] := by
  refine ⟨by decide, by decide, by decide, by decide, by decide, ?_⟩
  intro h
  have := congrArg List.length h
  rw [show (psLoop "f" [c4line.data, "Open Positions".data, c8line3.data]).length = 1
      from by decide,
    show (psLoop "f" [c4line.data, c8line3.data]).length = 2 from by decide] at this
  exact absurd this (by decide)

/-! ## Claim C4 (end-to-end example) -/

/-- C4: the specification's example line, parsed by the Purchase-and-Sale
parser, yields exactly the one record required by the spec, with
`tradePrice = -10.08` rendered as the exact rational `-1008/100`. -/
theorem c4_end_to_end :
    parse_purchase_and_sale_summary_text c4line "statement.pdf" = [c4rec] := by
  decide

/-! ## Claim C9 (section slicing) -/

theorem findStartAux_append {P : List (List Char)} {hl : List Char}
    {rest : List (List Char)}
    (hP : ∀ l ∈ P, occursB pssHeader.data l = false)
    (hh : occursB pssHeader.data hl = true) :
    ∀ i, findStartAux (P ++ hl :: rest) i = some (i + P.length + 1) := by
  induction P with
  | nil =>
    intro i
    simp [findStartAux, hh]
  | cons x P ih =>
    intro i
    have hx := hP x (List.mem_cons_self x P)
    have ih' := ih (fun l hl' => hP l (List.mem_cons_of_mem x hl')) (i + 1)
    rw [List.cons_append, findStartAux, if_neg (by simp [hx]), ih']
    congr 1
    simp only [List.length_cons]
    omega

theorem findEndAux_append {M : List (List Char)} {bl : List Char}
    {S : List (List Char)}
    (hM : ∀ l ∈ M, isBoundaryLine l = false) (hb : isBoundaryLine bl = true) :
    ∀ i, findEndAux (M ++ bl :: S) i = some (i + M.length) := by
  induction M with
  | nil =>
    intro i
    simp [findEndAux, hb]
  | cons x M ih =>
    intro i
    have hx := hM x (List.mem_cons_self x M)
    have ih' := ih (fun l hl' => hM l (List.mem_cons_of_mem x hl')) (i + 1)
    rw [List.cons_append, findEndAux, if_neg (by simp [hx]), ih']
    congr 1
    simp only [List.length_cons]
    omega

/-- C9: when the extracted lines consist of a header-free prefix `P`, the
first line containing the section header, a run `M` free of boundary
markers, the first boundary line after the header, and a suffix `S`, the
working text handed to the parser is exactly `M`: strictly after the
header line and strictly before the boundary line. -/
theorem c9_section_is_between_header_and_boundary
    (P : List (List Char)) (hl : List Char) (M : List (List Char))
    (bl : List Char) (S : List (List Char))
    (hP : ∀ l ∈ P, ¬ Occurs pssHeader.data l)
    (hh : Occurs pssHeader.data hl)
    (hM : ∀ l ∈ M, isBoundaryLine l = false)
    (hb : isBoundaryLine bl = true) :
    sectionLines (P ++ hl :: (M ++ bl :: S)) = some M := by
  have hP' : ∀ l ∈ P, occursB pssHeader.data l = false := by
    intro l hlmem
    cases hx : occursB pssHeader.data l with
    | false => rfl
    | true => exact absurd ((occursB_iff _ _).mp hx) (hP l hlmem)
  have hh' : occursB pssHeader.data hl = true := (occursB_iff _ _).mpr hh
  have hstart : findStart (P ++ hl :: (M ++ bl :: S)) = some (P.length + 1) := by
    unfold findStart
    rw [findStartAux_append hP' hh' 0]
    simp
  have hassoc : P ++ hl :: (M ++ bl :: S) = (P ++ [hl]) ++ (M ++ bl :: S) := by simp
  have hlen : P.length + 1 = (P ++ [hl]).length := by simp
  have hdrop : (P ++ hl :: (M ++ bl :: S)).drop (P.length + 1) = M ++ bl :: S := by
    rw [hassoc, hlen, List.drop_left]
  have hend : findEnd (P ++ hl :: (M ++ bl :: S)) (P.length + 1) =
      P.length + 1 + M.length := by
    unfold findEnd
    rw [hdrop, findEndAux_append hM hb]
    rfl
  unfold sectionLines
  rw [hstart, Option.map_some']
  congr 1
  rw [hend]
  unfold pySlice
  have htake : (P ++ hl :: (M ++ bl :: S)).take (P.length + 1 + M.length) =
      (P ++ [hl]) ++ M := by
    rw [hassoc, hlen, List.take_append, List.take_left]
  rw [htake, hlen, List.drop_left]

/-- Witness for C9 at a concrete document layout. -/
theorem c9_section_is_between_header_and_boundary_witness :
    sectionLines (["prelude".data] ++ "Purchase and Sale Summary".data ::
        ([c4line.data] ++ "Open Positions".data :: ["tail".data])) =
      some [c4line.data] := by
  apply c9_section_is_between_header_and_boundary
  · intro l hl
    rw [List.mem_singleton] at hl
    subst hl
    exact fun hc => absurd ((occursB_iff _ _).mpr hc) (by decide)
  · exact (occursB_iff _ _).mp (by decide)
  · intro l hl
    rw [List.mem_singleton] at hl
    subst hl
    decide
  · decide

/-! ## Claim C5 (`parse_date` characterization) -/

theorem isDig_toNat {c : Char} (h : isDig c = true) :
    48 ≤ c.toNat ∧ c.toNat ≤ 57 := by
  simp only [isDig, Bool.and_eq_true, decide_eq_true_eq] at h
  exact ⟨h.1, h.2⟩

theorem digChar_digVal {c : Char} (h : isDig c = true) : digChar (digVal c) = c := by
  obtain ⟨h1, _⟩ := isDig_toNat h
  unfold digChar digVal
  rw [show 48 + (c.toNat - 48) = c.toNat by omega]
  exact Char.ofNat_toNat c

theorem digVal_le_9 {c : Char} (h : isDig c = true) : digVal c ≤ 9 := by
  obtain ⟨_, h2⟩ := isDig_toNat h
  unfold digVal
  omega

theorem digVal_pos {c : Char} (h : isDig c = true) (h0 : c ≠ '0') : 1 ≤ digVal c := by
  obtain ⟨h1, _⟩ := isDig_toNat h
  have : c.toNat ≠ 48 := by
    intro heq
    exact h0 (by rw [← Char.ofNat_toNat c, heq])
  unfold digVal
  omega

theorem mem_ite_singleton {α : Type} {c : Prop} [Decidable c] {x a : α}
    (h : x ∈ (if c then [a] else [])) : c ∧ x = a := by
  split at h
  · next hc => exact ⟨hc, List.mem_singleton.mp h⟩
  · simp at h

theorem isDig_digChar {n : Nat} (h : n ≤ 9) : isDig (digChar n) = true := by
  interval_cases n <;> decide

theorem digVal_digChar {n : Nat} (h : n ≤ 9) : digVal (digChar n) = n := by
  interval_cases n <;> decide

theorem digChar_ne_zero {n : Nat} (h1 : 1 ≤ n) (h9 : n ≤ 9) : digChar n ≠ '0' := by
  interval_cases n <;> decide

theorem digitsVal_one (c : Char) : digitsVal [c] = digVal c := by
  simp [digitsVal]

theorem digitsVal_two (c1 c2 : Char) :
    digitsVal [c1, c2] = 10 * digVal c1 + digVal c2 := by
  simp [digitsVal, List.foldl]

theorem reprs2_spec {n : Nat} {ms : List Char} (hn : n ≤ 99) (h : ms ∈ reprs2 n) :
    digitsVal ms = n ∧ ms ≠ [] ∧ ∀ c ∈ ms, isDig c = true := by
  unfold reprs2 at h
  split at h
  · next hlt =>
    rcases List.mem_pair.mp h with rfl | rfl
    · refine ⟨?_, by simp, ?_⟩
      · rw [digitsVal_one, digVal_digChar (by omega)]
      · intro c hc
        rw [List.mem_singleton.mp hc]
        exact isDig_digChar (by omega)
    · refine ⟨?_, by simp, ?_⟩
      · rw [digitsVal_two, digVal_digChar (by omega)]
        have h0 : digVal '0' = 0 := by decide
        omega
      · intro c hc
        rcases List.mem_pair.mp hc with rfl | rfl
        · decide
        · exact isDig_digChar (by omega)
  · next hge =>
    rw [List.mem_singleton.mp h]
    have hq : n / 10 ≤ 9 := by omega
    have hr : n % 10 ≤ 9 := by omega
    refine ⟨?_, by simp, ?_⟩
    · rw [digitsVal_two, digVal_digChar hq, digVal_digChar hr]
      omega
    · intro c hc
      rcases List.mem_pair.mp hc with rfl | rfl
      · exact isDig_digChar hq
      · exact isDig_digChar hr

theorem oneDigitCase {c1 : Char} {m : Nat} {r rest : List Char}
    (hd : isDig c1 = true) (hne : c1 ≠ '0')
    (heq : (m, r) = (digVal c1, rest)) :
    ∃ ms, ms ∈ reprs2 m ∧ c1 :: rest = ms ++ r ∧ 1 ≤ m ∧ m ≤ 31 ∧
      ∀ c ∈ ms, isDig c = true := by
  rw [Prod.mk.injEq] at heq
  obtain ⟨rfl, rfl⟩ := heq
  refine ⟨[c1], ?_, by simp, digVal_pos hd hne,
    le_trans (digVal_le_9 hd) (by omega), by simpa using hd⟩
  unfold reprs2
  rw [if_pos (by have := digVal_le_9 hd; omega), digChar_digVal hd]
  simp

theorem zeroPadCase {c2 : Char} {m : Nat} {r rest : List Char}
    (hd2 : isDig c2 = true) (hne2 : c2 ≠ '0')
    (heq : (m, r) = (digVal c2, rest)) :
    ∃ ms, ms ∈ reprs2 m ∧ '0' :: c2 :: rest = ms ++ r ∧ 1 ≤ m ∧ m ≤ 31 ∧
      ∀ c ∈ ms, isDig c = true := by
  rw [Prod.mk.injEq] at heq
  obtain ⟨rfl, rfl⟩ := heq
  refine ⟨['0', c2], ?_, by simp, digVal_pos hd2 hne2,
    le_trans (digVal_le_9 hd2) (by omega), ?_⟩
  · unfold reprs2
    rw [if_pos (by have := digVal_le_9 hd2; omega), digChar_digVal hd2]
    simp
  · intro c hc
    rcases List.mem_pair.mp hc with rfl | rfl
    · decide
    · exact hd2

theorem monthCands_sound {l : List Char} {m : Nat} {r : List Char}
    (h : (m, r) ∈ monthCands l) :
    ∃ ms, ms ∈ reprs2 m ∧ l = ms ++ r ∧ 1 ≤ m ∧ m ≤ 12 ∧
      ∀ c ∈ ms, isDig c = true := by
  rcases l with _ | ⟨c1, _ | ⟨c2, rest⟩⟩
  case nil => simp [monthCands] at h
  case cons.nil =>
    rw [monthCands] at h
    obtain ⟨hcond, heq⟩ := mem_ite_singleton h
    simp only [Bool.and_eq_true, decide_eq_true_eq] at hcond
    have hm : m = digVal c1 := congrArg Prod.fst heq
    have hle := digVal_le_9 hcond.1
    obtain ⟨ms, h1, h2, h3, _, h5⟩ := oneDigitCase hcond.1 hcond.2 heq
    exact ⟨ms, h1, h2, h3, by omega, h5⟩
  case cons.cons =>
    rw [monthCands] at h
    rcases List.mem_append.mp h with h | h
    · rcases List.mem_append.mp h with h | h
      · obtain ⟨hcond, heq⟩ := mem_ite_singleton h
        simp only [Bool.and_eq_true, Bool.or_eq_true, decide_eq_true_eq] at hcond
        obtain ⟨rfl, hc2⟩ := hcond
        rw [Prod.mk.injEq] at heq
        obtain ⟨rfl, rfl⟩ := heq
        rcases hc2 with (rfl | rfl) | rfl
        · exact ⟨['1', '0'], by decide, by simp, by decide, by decide, by decide⟩
        · exact ⟨['1', '1'], by decide, by simp, by decide, by decide, by decide⟩
        · exact ⟨['1', '2'], by decide, by simp, by decide, by decide, by decide⟩
      · obtain ⟨hcond, heq⟩ := mem_ite_singleton h
        simp only [Bool.and_eq_true, decide_eq_true_eq] at hcond
        obtain ⟨⟨rfl, hd2⟩, hne2⟩ := hcond
        have hm : m = digVal c2 := congrArg Prod.fst heq
        have hle := digVal_le_9 hd2
        obtain ⟨ms, h1, h2, h3, _, h5⟩ := zeroPadCase hd2 hne2 heq
        exact ⟨ms, h1, h2, h3, by omega, h5⟩
    · obtain ⟨hcond, heq⟩ := mem_ite_singleton h
      simp only [Bool.and_eq_true, decide_eq_true_eq] at hcond
      obtain ⟨hd1, hne1⟩ := hcond
      rw [Prod.mk.injEq] at heq
      obtain ⟨rfl, rfl⟩ := heq
      refine ⟨[c1], ?_, by simp, digVal_pos hd1 hne1,
        le_trans (digVal_le_9 hd1) (by omega), by simpa using hd1⟩
      unfold reprs2
      rw [if_pos (by have := digVal_le_9 hd1; omega), digChar_digVal hd1]
      simp

theorem dayCands_sound {l : List Char} {d : Nat} {r : List Char}
    (h : (d, r) ∈ dayCands l) :
    ∃ ds, ds ∈ reprs2 d ∧ l = ds ++ r ∧ 1 ≤ d ∧ d ≤ 31 ∧
      ∀ c ∈ ds, isDig c = true := by
  rcases l with _ | ⟨c1, _ | ⟨c2, rest⟩⟩
  case nil => simp [dayCands] at h
  case cons.nil =>
    rw [dayCands] at h
    obtain ⟨hcond, heq⟩ := mem_ite_singleton h
    simp only [Bool.and_eq_true, decide_eq_true_eq] at hcond
    exact oneDigitCase hcond.1 hcond.2 heq
  case cons.cons =>
    rw [dayCands] at h
    rcases List.mem_append.mp h with h | h
    · rcases List.mem_append.mp h with h | h
      · rcases List.mem_append.mp h with h | h
        · obtain ⟨hcond, heq⟩ := mem_ite_singleton h
          simp only [Bool.and_eq_true, Bool.or_eq_true, decide_eq_true_eq] at hcond
          obtain ⟨rfl, hc2⟩ := hcond
          rw [Prod.mk.injEq] at heq
          obtain ⟨rfl, rfl⟩ := heq
          rcases hc2 with rfl | rfl
          · exact ⟨['3', '0'], by decide, by simp, by decide, by decide, by decide⟩
          · exact ⟨['3', '1'], by decide, by simp, by decide, by decide, by decide⟩
        · obtain ⟨hcond, heq⟩ := mem_ite_singleton h
          simp only [Bool.and_eq_true, Bool.or_eq_true, decide_eq_true_eq] at hcond
          obtain ⟨hc1, hd2⟩ := hcond
          rw [Prod.mk.injEq] at heq
          obtain ⟨rfl, rfl⟩ := heq
          have hv2 := digVal_le_9 hd2
          rcases hc1 with rfl | rfl
          · have h1 : digVal '1' = 1 := by decide
            refine ⟨['1', c2], ?_, by simp, by omega, by omega, ?_⟩
            · unfold reprs2
              rw [if_neg (by omega)]
              rw [show (10 * digVal '1' + digVal c2) / 10 = 1 by omega,
                show (10 * digVal '1' + digVal c2) % 10 = digVal c2 by omega,
                digChar_digVal hd2, show digChar 1 = '1' from by decide]
              simp
            · intro c hc
              rcases List.mem_pair.mp hc with rfl | rfl
              · decide
              · exact hd2
          · have h1 : digVal '2' = 2 := by decide
            refine ⟨['2', c2], ?_, by simp, by omega, by omega, ?_⟩
            · unfold reprs2
              rw [if_neg (by omega)]
              rw [show (10 * digVal '2' + digVal c2) / 10 = 2 by omega,
                show (10 * digVal '2' + digVal c2) % 10 = digVal c2 by omega,
                digChar_digVal hd2, show digChar 2 = '2' from by decide]
              simp
            · intro c hc
              rcases List.mem_pair.mp hc with rfl | rfl
              · decide
              · exact hd2
      · obtain ⟨hcond, heq⟩ := mem_ite_singleton h
        simp only [Bool.and_eq_true, decide_eq_true_eq] at hcond
        obtain ⟨⟨rfl, hd2⟩, hne2⟩ := hcond
        exact zeroPadCase hd2 hne2 heq
    · obtain ⟨hcond, heq⟩ := mem_ite_singleton h
      simp only [Bool.and_eq_true, decide_eq_true_eq] at hcond
      obtain ⟨hd1, hne1⟩ := hcond
      rw [Prod.mk.injEq] at heq
      obtain ⟨rfl, rfl⟩ := heq
      refine ⟨[c1], ?_, by simp, digVal_pos hd1 hne1,
        le_trans (digVal_le_9 hd1) (by omega), by simpa using hd1⟩
      unfold reprs2
      rw [if_pos (by have := digVal_le_9 hd1; omega), digChar_digVal hd1]
      simp

theorem monthCands_complete {m : Nat} {ms : List Char} (h : ms ∈ reprs2 m)
    (h1 : 1 ≤ m) (h2 : m ≤ 12) (r : List Char) : (m, r) ∈ monthCands (ms ++ r) := by
  unfold reprs2 at h
  split at h
  · next hlt =>
    have hd : isDig (digChar m) = true := isDig_digChar (by omega)
    have hne : digChar m ≠ '0' := digChar_ne_zero h1 (by omega)
    have hv : digVal (digChar m) = m := digVal_digChar (by omega)
    rcases List.mem_pair.mp h with rfl | rfl
    · cases r with
      | nil =>
        rw [List.singleton_append, monthCands, if_pos (by simp [hd, hne])]
        simp [hv]
      | cons c2 r' =>
        rw [List.singleton_append, monthCands]
        refine List.mem_append.mpr (Or.inr ?_)
        rw [if_pos (by simp [hd, hne])]
        simp [hv]
    · rw [List.cons_append, List.cons_append, List.nil_append, monthCands]
      refine List.mem_append.mpr (Or.inl (List.mem_append.mpr (Or.inr ?_)))
      rw [if_pos (by simp [hd, hne])]
      simp [hv]
  · next hge =>
    push_neg at hge
    rw [List.mem_singleton.mp h, List.cons_append, List.cons_append, List.nil_append,
      monthCands]
    have hq : m / 10 = 1 := by omega
    have hr2 : m % 10 ≤ 2 := by omega
    have hvr : digVal (digChar (m % 10)) = m % 10 := digVal_digChar (by omega)
    refine List.mem_append.mpr (Or.inl (List.mem_append.mpr (Or.inl ?_)))
    rw [if_pos ?_]
    · refine List.mem_singleton.mpr ?_
      rw [Prod.mk.injEq]
      refine ⟨?_, rfl⟩
      rw [hvr]
      omega
    · rw [hq, show digChar 1 = '1' from by decide]
      have h012 : m % 10 = 0 ∨ m % 10 = 1 ∨ m % 10 = 2 := by omega
      rcases h012 with h012 | h012 | h012 <;> rw [h012] <;> decide

theorem dayCands_complete {d : Nat} {ds : List Char} (h : ds ∈ reprs2 d)
    (h1 : 1 ≤ d) (h2 : d ≤ 31) (r : List Char) : (d, r) ∈ dayCands (ds ++ r) := by
  unfold reprs2 at h
  split at h
  · next hlt =>
    have hd : isDig (digChar d) = true := isDig_digChar (by omega)
    have hne : digChar d ≠ '0' := digChar_ne_zero h1 (by omega)
    have hv : digVal (digChar d) = d := digVal_digChar (by omega)
    rcases List.mem_pair.mp h with rfl | rfl
    · cases r with
      | nil =>
        rw [List.singleton_append, dayCands, if_pos (by simp [hd, hne])]
        simp [hv]
      | cons c2 r' =>
        rw [List.singleton_append, dayCands]
        refine List.mem_append.mpr (Or.inr ?_)
        rw [if_pos (by simp [hd, hne])]
        simp [hv]
    · rw [List.cons_append, List.cons_append, List.nil_append, dayCands]
      refine List.mem_append.mpr (Or.inl (List.mem_append.mpr (Or.inr ?_)))
      rw [if_pos (by simp [hd, hne])]
      simp [hv]
  · next hge =>
    push_neg at hge
    rw [List.mem_singleton.mp h, List.cons_append, List.cons_append, List.nil_append,
      dayCands]
    have hr9 : d % 10 ≤ 9 := by omega
    have hvr : digVal (digChar (d % 10)) = d % 10 := digVal_digChar hr9
    have hdr : isDig (digChar (d % 10)) = true := isDig_digChar hr9
    by_cases h30 : 30 ≤ d
    · have hq : d / 10 = 3 := by omega
      refine List.mem_append.mpr
        (Or.inl (List.mem_append.mpr (Or.inl (List.mem_append.mpr (Or.inl ?_)))))
      rw [if_pos ?_]
      · refine List.mem_singleton.mpr ?_
        rw [Prod.mk.injEq]
        refine ⟨?_, rfl⟩
        rw [hvr]
        omega
      · rw [hq, show digChar 3 = '3' from by decide]
        have h01 : d % 10 = 0 ∨ d % 10 = 1 := by omega
        rcases h01 with h01 | h01 <;> rw [h01] <;> decide
    · refine List.mem_append.mpr
        (Or.inl (List.mem_append.mpr (Or.inl (List.mem_append.mpr (Or.inr ?_)))))
      rw [if_pos ?_]
      · refine List.mem_singleton.mpr ?_
        rw [Prod.mk.injEq]
        refine ⟨?_, rfl⟩
        rw [hvr, digVal_digChar (show d / 10 ≤ 9 by omega)]
        omega
      · have hq12 : d / 10 = 1 ∨ d / 10 = 2 := by omega
        rcases hq12 with hq | hq <;>
          rw [hq] <;> simp [hdr] <;> decide

theorem digits_sep_unique : ∀ (ms ms' ds ds' : List Char),
    (∀ c ∈ ms, isDig c = true) → (∀ c ∈ ms', isDig c = true) →
    ms ++ '-' :: ds = ms' ++ '-' :: ds' → ms = ms' ∧ ds = ds' := by
  intro ms
  induction ms with
  | nil =>
    intro ms' ds ds' _ hm' heq
    cases ms' with
    | nil =>
      simp only [List.nil_append, List.cons.injEq] at heq
      exact ⟨rfl, heq.2⟩
    | cons x t =>
      exfalso
      simp only [List.nil_append, List.cons_append, List.cons.injEq] at heq
      have hx := hm' x (List.mem_cons_self x t)
      rw [← heq.1] at hx
      exact absurd hx (by decide)
  | cons c t ih =>
    intro ms' ds ds' hm hm' heq
    cases ms' with
    | nil =>
      exfalso
      simp only [List.cons_append, List.nil_append, List.cons.injEq] at heq
      have hc := hm c (List.mem_cons_self c t)
      rw [heq.1] at hc
      exact absurd hc (by decide)
    | cons c' t' =>
      simp only [List.cons_append, List.cons.injEq] at heq
      obtain ⟨rfl, heq2⟩ := heq
      obtain ⟨rfl, hds⟩ := ih t' ds ds'
        (fun x hx => hm x (List.mem_cons_of_mem c hx))
        (fun x hx => hm' x (List.mem_cons_of_mem c hx)) heq2
      exact ⟨rfl, hds⟩

theorem laxYMD_unique {w : List Char} {y m d y' m' d' : Nat}
    (h : laxYMD w y m d) (h' : laxYMD w y' m' d') :
    y = y' ∧ m = m' ∧ d = d' := by
  obtain ⟨ys, ms, ds, hw, hlen, hdig, hval, hms, hds, hm1, hm2, hd1, hd2⟩ := h
  obtain ⟨ys', ms', ds', hw', hlen', hdig', hval', hms', hds', hm1', hm2', hd1', hd2'⟩ := h'
  rw [hw] at hw'
  obtain ⟨hys, htail⟩ := List.append_inj hw' (by rw [hlen, hlen'])
  rw [List.cons.injEq] at htail
  have s1 := reprs2_spec (by omega) hms
  have s1' := reprs2_spec (by omega) hms'
  have s2 := reprs2_spec (by omega) hds
  have s2' := reprs2_spec (by omega) hds'
  obtain ⟨hmseq, hdseq⟩ := digits_sep_unique ms ms' ds ds' s1.2.2 s1'.2.2 htail.2
  refine ⟨?_, ?_, ?_⟩
  · rw [← hval, ← hval', hys]
  · rw [← s1.1, ← s1'.1, hmseq]
  · rw [← s2.1, ← s2'.1, hdseq]

theorem length_eq_four {α : Type} {l : List α} (h : l.length = 4) :
    ∃ a b c d, l = [a, b, c, d] := by
  rcases l with _ | ⟨a, l⟩
  · exfalso; simp at h
  rcases l with _ | ⟨b, l⟩
  · exfalso; simp at h
  rcases l with _ | ⟨c, l⟩
  · exfalso; simp at h
  rcases l with _ | ⟨d, l⟩
  · exfalso; simp at h
  rcases l with _ | ⟨e, l⟩
  · exact ⟨a, b, c, d, rfl⟩
  · exfalso
    simp only [List.length_cons] at h
    omega

theorem ymdMatch_sound {w : List Char} {y m d : Nat}
    (h : ymdMatch w = some (y, m, d)) : laxYMD w y m d := by
  rcases w with _ | ⟨y1, _ | ⟨y2, _ | ⟨y3, _ | ⟨y4, _ | ⟨c5, rest⟩⟩⟩⟩⟩
  case nil => simp [ymdMatch] at h
  case cons.nil => simp [ymdMatch] at h
  case cons.cons.nil => simp [ymdMatch] at h
  case cons.cons.cons.nil => simp [ymdMatch] at h
  case cons.cons.cons.cons.nil => simp [ymdMatch] at h
  case cons.cons.cons.cons.cons =>
    rw [ymdMatch] at h
    split at h
    · next hcond =>
      simp only [Bool.and_eq_true, decide_eq_true_eq] at hcond
      obtain ⟨⟨⟨⟨hd1, hd2⟩, hd3⟩, hd4⟩, rfl⟩ := hcond
      obtain ⟨mc, hmc, hf⟩ := firstSome_eq_some h
      obtain ⟨m0, r1⟩ := mc
      obtain ⟨ms, hmsrep, hrest, hm1, hm2, _⟩ := monthCands_sound hmc
      rcases r1 with _ | ⟨c6, r2⟩
      · simp [dayTail] at hf
      · rw [dayTail] at hf
        split at hf
        · next hc6 =>
          subst hc6
          obtain ⟨dc, hdc, hinner⟩ := firstSome_eq_some hf
          obtain ⟨d0, r3⟩ := dc
          obtain ⟨ds, hdsrep, hr2, hdd1, hdd2, _⟩ := dayCands_sound hdc
          split at hinner
          · next hr3 =>
            rw [Option.some.injEq, Prod.mk.injEq, Prod.mk.injEq] at hinner
            obtain ⟨hy, hm, hd⟩ := hinner
            subst hy hm hd hr3
            refine ⟨[y1, y2, y3, y4], ms, ds, ?_, rfl, ?_, rfl, hmsrep, ?_, hm1, hm2,
              hdd1, hdd2⟩
            · rw [List.append_nil] at hr2
              rw [hrest, hr2]
              simp
            · intro c hc
              rcases List.mem_cons.mp hc with rfl | hc
              · exact hd1
              rcases List.mem_cons.mp hc with rfl | hc
              · exact hd2
              rcases List.mem_cons.mp hc with rfl | hc
              · exact hd3
              rcases List.mem_cons.mp hc with rfl | hc
              · exact hd4
              · simp at hc
            · exact hdsrep
          · exact absurd hinner (by simp)
        · exact absurd hf (by simp)
    · exact absurd h (by simp)

theorem ymdMatch_complete {w : List Char} {y m d : Nat} (h : laxYMD w y m d) :
    ymdMatch w ≠ none := by
  obtain ⟨ys, ms, ds, rfl, hlen, hdig, hval, hms, hds, hm1, hm2, hd1, hd2⟩ := h
  obtain ⟨a, b, c, e, rfl⟩ := length_eq_four hlen
  have ha := hdig a (by simp)
  have hb := hdig b (by simp)
  have hc := hdig c (by simp)
  have he := hdig e (by simp)
  rw [List.cons_append, List.cons_append, List.cons_append, List.cons_append,
    List.nil_append, ymdMatch, if_pos (by simp [ha, hb, hc, he])]
  apply firstSome_ne_none
  refine ⟨(m, '-' :: ds), monthCands_complete hms hm1 hm2 ('-' :: ds), ?_⟩
  rw [dayTail, if_pos rfl]
  apply firstSome_ne_none
  have hdc := dayCands_complete hds hd1 hd2 []
  rw [List.append_nil] at hdc
  exact ⟨(d, []), hdc, by simp⟩

/-- Counterexample to C5 as stated: the cleaned input `2025-9-1` does not
match the strict `YYYY-MM-DD` pattern, yet `parse_date` returns the ISO
timestamp — `strptime`'s `%m`/`%d` also accept one-digit months and days. -/
theorem c5_counterexample :
    strictYMD (dateClean "2025-9-1") = false ∧
    parse_date "2025-9-1" = some "2025-09-01T00:00:00" := by
  constructor
  · decide
  · decide

/-- C5 (amended): `parse_date` returns an ISO midnight timestamp exactly
when the trimmed text (newlines read as hyphens) is a 4-digit year, a
hyphen, a one- **or** two-digit month in `[1,12]`, a hyphen, and a one- or
two-digit day, the whole naming a valid calendar date (year ≥ 1, day within
the month); every other input yields `none`. -/
theorem c5_normalize_date_amended (s : String) :
    (∀ y m d, laxYMD (dateClean s) y m d →
      parse_date s =
        if 1 ≤ y ∧ d ≤ daysInMonth y m then some (isoOfYMD y m d) else none) ∧
    ((¬ ∃ y m d, laxYMD (dateClean s) y m d) → parse_date s = none) := by
  constructor
  · intro y m d hlax
    by_cases hs : s = ""
    · exfalso
      obtain ⟨ys, ms, ds, hw, hlen, _⟩ := hlax
      rw [hs] at hw
      have : dateClean "" = [] := rfl
      rw [this] at hw
      rcases List.append_eq_nil.mp hw.symm with ⟨rfl, habs⟩
      simp at habs
    · have hmatch : ymdMatch (dateClean s) = some (y, m, d) := by
        cases hopt : ymdMatch (dateClean s) with
        | none => exact absurd hopt (ymdMatch_complete hlax)
        | some t =>
          obtain ⟨y', m', d'⟩ := t
          obtain ⟨hy, hm, hd⟩ := laxYMD_unique hlax (ymdMatch_sound hopt)
          rw [hy, hm, hd]
      simp only [parse_date, hs, if_false]
      rw [hmatch]
  · intro hnone
    by_cases hs : s = ""
    · simp [parse_date, hs]
    · simp only [parse_date, hs, if_false]
      cases hopt : ymdMatch (dateClean s) with
      | none => rfl
      | some t =>
        obtain ⟨y, m, d⟩ := t
        exact absurd ⟨y, m, d, ymdMatch_sound hopt⟩ hnone

/-- Witness for C5 (amended): a pattern-matching but calendar-invalid date
maps to `none`; a valid date maps to its timestamp; a non-matching string
maps to `none`. -/
theorem c5_normalize_date_amended_witness :
    parse_date "2025-02-30" = none ∧
    parse_date "2025-12-31" = some "2025-12-31T00:00:00" ∧
    parse_date "hello" = none := by
  refine ⟨?_, ?_, ?_⟩
  · have h := (c5_normalize_date_amended "2025-02-30").1 2025 2 30
      ⟨"2025".data, ['0', '2'], ['3', '0'], by decide, by decide, by decide, by decide,
        by decide, by decide, by decide, by decide, by decide, by decide⟩
    rw [h, if_neg (by decide)]
  · have h := (c5_normalize_date_amended "2025-12-31").1 2025 12 31
      ⟨"2025".data, ['1', '2'], ['3', '1'], by decide, by decide, by decide, by decide,
        by decide, by decide, by decide, by decide, by decide, by decide⟩
    rw [h, if_pos (by decide)]
    decide
  · apply (c5_normalize_date_amended "hello").2
    rintro ⟨y, m, d, ys, ms, ds, hw, hlen, hdig, _⟩
    have hys : ("hello".data).take 4 = ys := by
      have hcl : dateClean "hello" = "hello".data := by decide
      rw [hcl] at hw
      rw [hw, ← hlen, List.take_left]
    have hh : isDig 'h' = true := by
      apply hdig
      rw [← hys]
      decide
    exact absurd hh (by decide)

end BetViz
